import Mathlib

/-! Verification of the Av1an chunked-encoding pipeline (`av1an.py`).

The embedding is shallow: Python strings are `List Char`, the resume
journal `done.json` is a structure over an association list, dictionaries
read from JSON are association lists or lookup functions, and fallible
operations return `Option` or `Except`.  Frame counts produced by the
external probe tool, perceptual scores produced by the external scorer,
and the candidate-quantizer command list are parameters of the
corresponding functions, since they come from subprocess output. -/

namespace Av1anSpec

/-! Python primitive models: decimal rendering and parsing, `",".join`,
comma splitting, `pathlib` stem/suffix handling. -/

/-- Decimal digit characters of `n`, most significant first, driven by
explicit fuel so the definition is structural.  Mirrors Python `str` on a
positive int once called with enough fuel. -/
def natReprAux : Nat → Nat → List Char
  | 0, _ => []
  | _ + 1, 0 => []
  | fuel + 1, n + 1 =>
    natReprAux fuel ((n + 1) / 10) ++ [Nat.digitChar ((n + 1) % 10)]

/-- Python `str` on a non-negative int. -/
def natRepr (n : Nat) : List Char :=
  if n = 0 then ['0'] else natReprAux n n

/-- Accumulating decimal parser: fails on any non-digit character. -/
def parseNatAux : Nat → List Char → Option Nat
  | acc, [] => some acc
  | acc, c :: cs =>
    if c.isDigit then parseNatAux (acc * 10 + (c.toNat - 48)) cs else none

/-- Parse a non-empty all-digit character list as a decimal integer,
mirroring `ast.literal_eval` on a single decimal literal. -/
def parseNat (cs : List Char) : Option Nat :=
  if cs.isEmpty then none else parseNatAux 0 cs

/-- Python `",".join` over already-rendered fields. -/
def intercalateComma : List (List Char) → List Char
  | [] => []
  | [x] => x
  | x :: y :: ys => x ++ ',' :: intercalateComma (y :: ys)

/-- Split a character list at every comma; the left inverse direction of
`intercalateComma` for comma-free fields. -/
def splitComma : List Char → List (List Char)
  | [] => [[]]
  | c :: cs =>
    if c = ',' then [] :: splitComma cs
    else
      match splitComma cs with
      | [] => [[c]]
      | t :: ts => (c :: t) :: ts

/-- Parse every comma-separated field as a decimal integer; any bad field
fails the whole parse. -/
def parseAll : List (List Char) → Option (List Nat)
  | [] => some []
  | x :: xs =>
    match parseNat x, parseAll xs with
    | some n, some ns => some (n :: ns)
    | _, _ => none

/-- Python value produced by `ast.literal_eval` on the scenes-cache text. -/
inductive PyVal
  | int (n : Nat)
  | tuple (l : List Nat)
  | list (l : List Nat)
deriving DecidableEq

/-- Scene-cache write in `Av1an.split_routine`:
`Path(scenes).write_text(','.join([str(x) for x in sc]))`. -/
def writeScenes (sc : List Nat) : List Char :=
  intercalateComma (sc.map natRepr)

/-- Scene-cache read in `Av1an.split_routine`:
`literal_eval(stats_file.read().strip())`, with `ast.literal_eval`
modelled on comma-separated decimal text (the only shape the writer
produces, which contains no whitespace, so `strip` is the identity): two
or more fields evaluate to a tuple, a single field to a bare int, and the
empty string is a parse error. -/
def readScenes (s : List Char) : Option PyVal :=
  match parseAll (splitComma s) with
  | none => none
  | some [n] => some (.int n)
  | some ns => some (.tuple ns)

/-- Index of the last `'.'` in a name, `pathlib`'s `name.rfind('.')` when
a dot exists. -/
def lastDotPos : List Char → Option Nat
  | [] => none
  | c :: cs =>
    match lastDotPos cs with
    | some i => some (i + 1)
    | none => if c = '.' then some 0 else none

/-- `pathlib.PurePath.stem` on a file name: with `i = name.rfind('.')`,
the prefix `name[:i]` when `0 < i < len(name) - 1`, else the whole name —
so neither a leading dot nor a trailing dot starts an extension. -/
def pyStem (cs : List Char) : List Char :=
  match lastDotPos cs with
  | some i => if 0 < i ∧ i < cs.length - 1 then cs.take i else cs
  | none => cs

/-- `pathlib.PurePath.suffix` on a file name. -/
def pySuffix (cs : List Char) : List Char := cs.drop (pyStem cs).length

/-- `pathlib.PurePath.with_suffix`: replace the final extension. -/
def pyWithSuffix (cs suf : List Char) : List Char := pyStem cs ++ suf

/-- `Av1an.outputs_filenames`: an operator-supplied output path gets its
suffix replaced by `.mkv`; without one the default `<stem>_av1.mkv` of the
input name is used. -/
def outputs_filenames (outputFile : Option (List Char)) (inputName : List Char) : List Char :=
  match outputFile with
  | some p => pyWithSuffix p ".mkv".toList
  | none => pyStem inputName ++ "_av1.mkv".toList

/-! Resume journal `done.json` and `Av1an.frame_check`. -/

/-- Parsed content of `done.json`. -/
structure Journal where
  total : Nat
  done : List (List Char × Nat)
deriving DecidableEq

/-- Journal written by the fresh branch of `Av1an.encoding_loop`:
`{'total': total, 'done': {}}`. -/
def initJournal (total : Nat) : Journal := { total := total, done := [] }

/-- Keys of the journal's `done` map. -/
def doneKeys (j : Journal) : List (List Char) := j.done.map Prod.fst

/-- Python dict assignment `d['done'][name] = v`: replace in place when the
key is present, append otherwise. -/
def updateDone (d : List (List Char × Nat)) (k : List Char) (v : Nat) :
    List (List Char × Nat) :=
  if d.any fun p => decide (p.1 = k) then
    d.map fun p => if p.1 = k then (k, v) else p
  else d ++ [(k, v)]

/-- First-match association lookup, the observable of a Python dict. -/
def doneLookup : List (List Char × Nat) → List Char → Option Nat
  | [], _ => none
  | p :: ps, k => if p.1 = k then some p.2 else doneLookup ps k

/-- Console output of `Av1an.frame_check`: the mismatch branch prints
`Frame Count Differ for Source {name}: {s2}/{s1}`, i.e. it reports the
encoded count and the source count. -/
inductive FCOutput
  | ok
  | mismatch (name : List Char) (encodedFrames sourceFrames : Nat)
deriving DecidableEq

/-- `Av1an.frame_check`: `s1` is the probed frame count of the source
chunk, `s2` the probed frame count of the encoded chunk.  With `no_check`
the chunk is recorded from the source count alone; otherwise it is
recorded only when the counts agree, and on disagreement the journal is
left untouched and both counts are reported. -/
def frame_check (noCheck : Bool) (j : Journal) (name : List Char) (s1 s2 : Nat) :
    Journal × FCOutput :=
  if noCheck then ({ j with done := updateDone j.done name s1 }, .ok)
  else if s1 = s2 then ({ j with done := updateDone j.done name s1 }, .ok)
  else (j, .mismatch name s2 s1)

/-! The encode queue of `Av1an.get_video_queue` and the worker pool of
`Av1an.encoding_loop`. -/

/-- A file of the split directory as seen by `Path.iterdir`: its name and
its `stat().st_size`. -/
structure VFile where
  name : List Char
  size : Nat
deriving DecidableEq

/-- Stable descending insertion by size. -/
def insertDesc (f : VFile) : List VFile → List VFile
  | [] => [f]
  | g :: gs => if f.size ≥ g.size then f :: g :: gs else g :: insertDesc f gs

/-- Python `sorted(queue, key=lambda x: -x.stat().st_size)`: a stable sort
by descending size, realized as stable insertion sort (any two stable
sorts under the same key agree). -/
def sortDesc : List VFile → List VFile
  | [] => []
  | f :: fs => insertDesc f (sortDesc fs)

/-- `Av1an.get_video_queue`: keep the `.mkv` entries of the split
directory, drop the ones already recorded in `done.json` when resuming
with an existing journal, sort big-first, and fail (`terminate()`) when
nothing is left. -/
def get_video_queue (files : List VFile) (resume : Bool) (doneFile : Option Journal) :
    Option (List VFile) :=
  let queue := files.filter fun x => decide (pySuffix x.name = ".mkv".toList)
  let queue :=
    match resume, doneFile with
    | true, some j => queue.filter fun x => !decide (x.name ∈ doneKeys j)
    | _, _ => queue
  let queue := sortDesc queue
  if queue.length = 0 then none else some queue

/-- Modelled from the spec: a `ThreadPoolExecutor` created with
`max_workers` workers runs at most `min max_workers tasks` of its
submitted tasks concurrently (it can neither exceed its worker count nor
the number of futures submitted to it). -/
def poolMaxConcurrent (maxWorkers tasks : Nat) : Nat := min maxWorkers tasks

/-- `clips` of `Av1an.encoding_loop`: the count of `.mkv` files in the
split directory. -/
def clipsCount (files : List VFile) : Nat :=
  (files.filter fun x => decide (pySuffix x.name = ".mkv".toList)).length

/-- `w = min(self.d.get('workers'), clips)` computed by
`Av1an.encoding_loop`. -/
def encodingLoopW (workers : Nat) (files : List VFile) : Nat :=
  min workers (clipsCount files)

/-- Concurrency realized by `Av1an.encoding_loop`: the executor is created
with `max_workers = workers` and one future is submitted per command of
the encode queue. -/
def encodingLoopMaxConcurrent (workers commandCount : Nat) : Nat :=
  poolMaxConcurrent workers commandCount

/-! Config-file handling of `Av1an.config`. -/

/-- A Python dict observed through lookup. -/
def PyDict := String → Option String

/-- Python `dict.update`: for every key of `c` the value of `c` wins, all
other keys keep the value of `d`. -/
def dictUpdate (d c : PyDict) : PyDict :=
  fun k => (c k).orElse fun _ => d k

/-- `Av1an.config`: when the config file exists, its parsed dictionary is
`self.d.update(c)`-merged into the argument dictionary `d`; when it does
not exist, `d` is left unchanged (the file is written instead). -/
def configRead (d : PyDict) (cfgExists : Bool) (file : PyDict) : PyDict :=
  fun k => if cfgExists then dictUpdate d file k else d k

/-- Concrete command-line dictionary used to exercise `configRead`. -/
def cliArgsEx : PyDict := fun k => if k = "encoder" then some "aom" else none

/-- Concrete config-file dictionary used to exercise `configRead`. -/
def configFileEx : PyDict := fun k => if k = "encoder" then some "rav1e" else none

/-! Target-quality search `Av1an.target_vmaf`. -/

/-- Python `round`: round half to even (banker's rounding).  With
`f = ⌊q⌋` the fractional part `q - f` equals
`(q.num - f * q.den) / q.den`, so comparing it against `1/2` is comparing
`2 * (q.num - f * q.den)` against `q.den`; the definition is stated that
way on integers to keep it kernel-computable. -/
def pyRound (q : ℚ) : ℤ :=
  let f := ⌊q⌋
  let twiceFrac := 2 * (q.num - f * q.den)
  if twiceFrac < (q.den : ℤ) then f
  else if (q.den : ℤ) < twiceFrac then f + 1
  else if f % 2 = 0 then f else f + 1

/-- Outcome of the probing loop of `Av1an.target_vmaf`: either an early
return with the probes recorded so far, or fall-through to interpolation
over all recorded probes. -/
inductive TVResult
  | early (cq : ℤ) (probes : List (ℚ × ℤ))
  | interpolate (probes : List (ℚ × ℤ))
deriving DecidableEq

/-- Fatal error of `Av1an.target_vmaf` (`terminate()` before any probe). -/
inductive TVError
  | tooFewSteps
deriving DecidableEq

/-- The `for count, i in enumerate(cmd)` loop of `Av1an.target_vmaf`: each
iteration appends `(mean, cq)` to `vmaf_cq`; at `count == 0` a rounded
score above the target returns `max_cq`, at `count == 1` a rounded score
below the target returns `min_cq`, and every later iteration only
records.  The probe scores are inputs, since they come from the external
scorer. -/
def targetVmafLoop (target : ℚ) (minCq maxCq : ℤ) :
    Nat → List (ℚ × ℤ) → List (ℚ × ℤ) → TVResult
  | _, acc, [] => .interpolate acc
  | count, acc, (mean, cq) :: rest =>
    if count = 0 ∧ target < (pyRound mean : ℚ) then .early maxCq (acc ++ [(mean, cq)])
    else if count = 1 ∧ (pyRound mean : ℚ) < target then .early minCq (acc ++ [(mean, cq)])
    else targetVmafLoop target minCq maxCq (count + 1) (acc ++ [(mean, cq)]) rest

/-- `Av1an.target_vmaf`: the `vmaf_steps < 4` guard runs before the proxy
clip is built and before any probe; past it, the probing loop runs on the
probe command list `cmd` (one entry per candidate quantizer, carrying the
measured score). -/
def target_vmaf (steps : ℤ) (target : ℚ) (minCq maxCq : ℤ) (cmd : List (ℚ × ℤ)) :
    Except TVError TVResult :=
  if steps < 4 then .error .tooFewSteps
  else .ok (targetVmafLoop target minCq maxCq 0 [] cmd)

/-! Per-chunk command rewriting in `Av1an.encode`. -/

/-- Token of one command stage: the quantizer token or any other token. -/
inductive CToken
  | quant (v : ℤ)
  | other (s : List Char)
deriving DecidableEq

/-- Element of the command tuple built by the command builder: a shell
stage or the final `(source, target)` pair. -/
inductive CmdElem
  | stage (toks : List CToken)
  | filePair (src tgt : List Char)
deriving DecidableEq

/-- Modelled from the spec: `man_cq` (utils/utils.py, absent from src/) is
the pure quantizer override — it returns the same stage with its
`--cq-level`/`--quantizer` token replaced by the given value and every
other token unchanged. -/
def man_cq (cmd : List CToken) (q : ℤ) : List CToken :=
  cmd.map fun t =>
    match t with
    | .quant _ => .quant q
    | .other s => .other s

/-- Modelled from the spec: `boosting` (utils/boost.py, absent from src/)
rewrites the quantizer token of a stage to the boost-adjusted value and
returns that value; when `new_cq` is supplied it is used instead of the
brightness-derived value.  The brightness-derived value itself is the
parameter `adjusted`, since its formula lives outside src/. -/
def boosting (cmd : List CToken) (adjusted : ℤ) (new_cq : Option ℤ) :
    List CToken × ℤ :=
  let q := new_cq.getD adjusted
  (man_cq cmd q, q)

/-- Command rewriting done by `Av1an.encode` before stage execution: in
target-quality mode both passes are rewritten with the chosen quantizer
`tg_cq` via `man_cq`; in boost mode pass 1 is rewritten by `boosting` and
pass 2 by `boosting` with `new_cq` set to the value pass 1 produced; the
rest of the tuple (`commands[2:]`) is passed through.  `none` models the
branches on which the Python code raises (missing stages, or the
string-plus-tuple concatenation of the one-pass branches). -/
def encodeRewrite (passes : ℤ) (vmafCq : Option ℤ) (boostOn : Bool) (adjusted : ℤ)
    (commands : List CmdElem) : Option (List CmdElem) :=
  let afterTv : Option (List CmdElem) :=
    match vmafCq with
    | none => some commands
    | some tg =>
      match commands with
      | .stage c0 :: tail =>
        if passes = 2 then
          match tail with
          | .stage c1 :: rest =>
            some (.stage (man_cq c0 tg) :: .stage (man_cq c1 tg) :: rest)
          | _ => none
        else none
      | _ => none
  match afterTv with
  | none => none
  | some commands =>
    if boostOn then
      match commands with
      | .stage c0 :: tail =>
        let p0 := boosting c0 adjusted none
        if passes = 2 then
          match tail with
          | .stage c1 :: rest =>
            some (.stage p0.1 :: .stage (boosting c1 adjusted (some p0.2)).1 :: rest)
          | _ => none
        else none
      | _ => none
    else some commands

/-! Supporting lemmas. -/

theorem digitChar_isDigit : ∀ r : Nat, r < 10 → (Nat.digitChar r).isDigit = true := by
  decide

theorem digitChar_val : ∀ r : Nat, r < 10 → (Nat.digitChar r).toNat - 48 = r := by
  decide

theorem parseNatAux_append (acc : Nat) (xs ys : List Char) :
    parseNatAux acc (xs ++ ys) = (parseNatAux acc xs).bind fun a => parseNatAux a ys := by
  induction xs generalizing acc with
  | nil => simp [parseNatAux]
  | cons c cs ih =>
    by_cases h : c.isDigit
    · simp [parseNatAux, h, ih]
    · simp [parseNatAux, h]

theorem natReprAux_all_digits :
    ∀ fuel n, n ≤ fuel → ∀ c ∈ natReprAux fuel n, c.isDigit = true := by
  intro fuel
  induction fuel with
  | zero => intro n hn c hc; simp [natReprAux] at hc
  | succ fuel ih =>
    intro n hn c hc
    match n, hc with
    | 0, hc => simp [natReprAux] at hc
    | n + 1, hc =>
      rw [natReprAux] at hc
      rcases List.mem_append.1 hc with h | h
      · have hdiv : (n + 1) / 10 ≤ fuel := by
          have := Nat.div_lt_self (Nat.succ_pos n) (by omega : 1 < 10)
          omega
        exact ih _ hdiv c h
      · have hc' : c = Nat.digitChar ((n + 1) % 10) := by simpa using h
        subst hc'
        exact digitChar_isDigit _ (Nat.mod_lt _ (by omega))

theorem parseNatAux_natReprAux :
    ∀ fuel n acc, n ≤ fuel →
      parseNatAux acc (natReprAux fuel n) =
        some (acc * 10 ^ (natReprAux fuel n).length + n) := by
  intro fuel
  induction fuel with
  | zero =>
    intro n acc hn
    interval_cases n
    simp [natReprAux, parseNatAux]
  | succ fuel ih =>
    intro n acc hn
    match n with
    | 0 => simp [natReprAux, parseNatAux]
    | n + 1 =>
      have hdiv : (n + 1) / 10 ≤ fuel := by
        have := Nat.div_lt_self (Nat.succ_pos n) (by omega : 1 < 10)
        omega
      have hmod : (n + 1) % 10 < 10 := Nat.mod_lt _ (by omega)
      rw [natReprAux, parseNatAux_append, ih _ acc hdiv]
      rw [Option.some_bind]
      rw [parseNatAux, if_pos (digitChar_isDigit _ hmod), digitChar_val _ hmod, parseNatAux,
        List.length_append, List.length_singleton, pow_succ, ← mul_assoc]
      congr 1
      generalize acc * 10 ^ (natReprAux fuel ((n + 1) / 10)).length = X
      omega

theorem parseNat_natRepr (n : Nat) : parseNat (natRepr n) = some n := by
  match n with
  | 0 => rfl
  | n + 1 =>
    have hne : natReprAux (n + 1) (n + 1) ≠ [] := by
      rw [natReprAux]; simp
    rw [natRepr, if_neg (Nat.succ_ne_zero n), parseNat,
      if_neg (by simpa [List.isEmpty_iff] using hne),
      parseNatAux_natReprAux (n + 1) (n + 1) 0 le_rfl]
    simp

theorem comma_not_mem_natRepr (n : Nat) : ',' ∉ natRepr n := by
  match n with
  | 0 => decide
  | n + 1 =>
    rw [natRepr, if_neg (Nat.succ_ne_zero n)]
    intro hc
    have := natReprAux_all_digits (n + 1) (n + 1) le_rfl ',' hc
    exact absurd this (by decide)

theorem splitComma_single (x : List Char) (hx : ',' ∉ x) : splitComma x = [x] := by
  induction x with
  | nil => rfl
  | cons c cs ih =>
    simp only [List.mem_cons, not_or] at hx
    rw [splitComma, if_neg (Ne.symm hx.1), ih hx.2]

theorem splitComma_append (x r : List Char) (hx : ',' ∉ x) :
    splitComma (x ++ ',' :: r) = x :: splitComma r := by
  induction x with
  | nil => simp [splitComma]
  | cons c cs ih =>
    simp only [List.mem_cons, not_or] at hx
    rw [List.cons_append, splitComma, if_neg (Ne.symm hx.1), ih hx.2]

theorem splitComma_intercalate :
    ∀ xs : List (List Char), xs ≠ [] → (∀ x ∈ xs, ',' ∉ x) →
      splitComma (intercalateComma xs) = xs
  | [], h, _ => absurd rfl h
  | [x], _, hx => by
    rw [intercalateComma, splitComma_single x (hx x (by simp))]
  | x :: y :: ys, _, hx => by
    rw [intercalateComma, splitComma_append x _ (hx x (by simp)),
      splitComma_intercalate (y :: ys) (by simp)
        (fun z hz => hx z (List.mem_cons_of_mem x hz))]

theorem parseAll_map (sc : List Nat) : parseAll (sc.map natRepr) = some sc := by
  induction sc with
  | nil => rfl
  | cons n ns ih => rw [List.map_cons, parseAll, parseNat_natRepr, ih]

theorem lastDotPos_eq_none (e : List Char) (he : '.' ∉ e) : lastDotPos e = none := by
  induction e with
  | nil => rfl
  | cons c cs ih =>
    simp only [List.mem_cons, not_or] at he
    rw [lastDotPos, ih he.2, if_neg (Ne.symm he.1)]

theorem lastDotPos_append_dot (s e : List Char) (he : '.' ∉ e) :
    lastDotPos (s ++ '.' :: e) = some s.length := by
  induction s with
  | nil =>
    rw [List.nil_append, lastDotPos, lastDotPos_eq_none e he]
    rfl
  | cons c cs ih =>
    rw [List.cons_append, lastDotPos, ih]
    rfl

theorem take_length_append (s t : List Char) : (s ++ t).take s.length = s := by
  induction s with
  | nil => rfl
  | cons c cs ih => rw [List.cons_append, List.length_cons, List.take_succ_cons, ih]

theorem pyStem_append_ext (s e : List Char) (hs : s ≠ []) (hne : e ≠ []) (he : '.' ∉ e) :
    pyStem (s ++ '.' :: e) = s := by
  have h1 : 0 < s.length := List.length_pos.2 hs
  have h2 : 0 < e.length := List.length_pos.2 hne
  have h3 : s.length < (s ++ '.' :: e).length - 1 := by
    rw [List.length_append, List.length_cons]; omega
  rw [pyStem, lastDotPos_append_dot s e he]
  show (if 0 < s.length ∧ s.length < (s ++ '.' :: e).length - 1 then
      List.take s.length (s ++ '.' :: e) else s ++ '.' :: e) = s
  rw [if_pos ⟨h1, h3⟩, take_length_append]

theorem doneLookup_updateDone (d : List (List Char × Nat)) (k : List Char) (v : Nat) :
    doneLookup (updateDone d k v) k = some v := by
  induction d with
  | nil => simp [updateDone, doneLookup]
  | cons p ps ih =>
    rw [updateDone]
    by_cases hp : p.1 = k
    · rw [if_pos (by simp [List.any_cons, hp])]
      simp [doneLookup, hp]
    · by_cases hany : (ps.any fun q => decide (q.1 = k)) = true
      · rw [if_pos (by simp [List.any_cons, hany])]
        have ih' := ih
        rw [updateDone, if_pos hany] at ih'
        simpa [doneLookup, hp] using ih'
      · rw [if_neg (by simp [List.any_cons, hp, hany])]
        have ih' := ih
        rw [updateDone, if_neg hany] at ih'
        rw [List.cons_append, doneLookup, if_neg hp]
        exact ih'

theorem insertDesc_perm (f : VFile) (l : List VFile) : (insertDesc f l).Perm (f :: l) := by
  induction l with
  | nil => exact List.Perm.refl _
  | cons g gs ih =>
    rw [insertDesc]
    split
    · exact List.Perm.refl _
    · exact (ih.cons g).trans (List.Perm.swap f g gs)

theorem sortDesc_perm (l : List VFile) : (sortDesc l).Perm l := by
  induction l with
  | nil => exact List.Perm.refl _
  | cons f fs ih => exact (insertDesc_perm f (sortDesc fs)).trans (ih.cons f)

theorem get_video_queue_length (files : List VFile) (resume : Bool)
    (doneFile : Option Journal) (q : List VFile)
    (hq : get_video_queue files resume doneFile = some q) :
    q.length ≤ clipsCount files ∧ (resume = false → q.length = clipsCount files) := by
  simp only [get_video_queue] at hq
  split at hq
  · exact absurd hq (by simp)
  · replace hq := Option.some.inj hq
    subst hq
    rw [(sortDesc_perm _).length_eq]
    cases resume with
    | false =>
      exact ⟨le_of_eq rfl, fun _ => rfl⟩
    | true =>
      refine ⟨?_, fun h => by simp at h⟩
      cases doneFile with
      | none => exact le_of_eq rfl
      | some j => exact List.length_filter_le _ _

theorem targetVmafLoop_no_early (target : ℚ) (minCq maxCq : ℤ) :
    ∀ (rest acc : List (ℚ × ℤ)) (count : Nat), 2 ≤ count →
      targetVmafLoop target minCq maxCq count acc rest = .interpolate (acc ++ rest) := by
  intro rest
  induction rest with
  | nil => intro acc count h; simp [targetVmafLoop]
  | cons p ps ih =>
    intro acc count h
    obtain ⟨mean, cq⟩ := p
    rw [targetVmafLoop, if_neg (fun hc => absurd hc.1 (by omega)),
      if_neg (fun hc => absurd hc.1 (by omega)),
      ih (acc ++ [(mean, cq)]) (count + 1) (by omega), List.append_assoc]
    rfl

/-! Claim theorems. -/

/-- C5 counterexample: reading back a written one-element cut list yields
the bare integer `5`, not the list `[5]`, so the round trip does not
return the identical cut list. -/
theorem scenes_cache_roundtrip_counterexample :
    readScenes (writeScenes [5]) = some (.int 5) ∧
    readScenes (writeScenes [5]) ≠ some (.list [5]) :=
  ⟨rfl, by decide⟩

/-- C5 (amended): for a cut list with at least two entries, writing the
scenes cache and reading it back yields the same cut frames in order,
though as a Python tuple rather than a list; a one-entry list reads back
as a bare integer and an empty list fails to parse. -/
theorem scenes_cache_roundtrip (sc : List Nat) (n : Nat) (h : 2 ≤ sc.length) :
    readScenes (writeScenes sc) = some (.tuple sc) ∧
    readScenes (writeScenes [n]) = some (.int n) ∧
    readScenes (writeScenes []) = none := by
  refine ⟨?_, ?_, rfl⟩
  · match sc, h with
    | a :: b :: rest, _ =>
      rw [readScenes, writeScenes,
        splitComma_intercalate _ (by simp)
          (fun x hx => by
            obtain ⟨m, _, rfl⟩ := List.mem_map.1 hx
            exact comma_not_mem_natRepr m),
        parseAll_map]
  · rw [readScenes, writeScenes, List.map_cons, List.map_nil, intercalateComma,
      splitComma_single _ (comma_not_mem_natRepr n), parseAll, parseNat_natRepr n]
    rfl

/-- C5 witness: the amended round trip evaluated at `[100, 200]` and `7`. -/
theorem scenes_cache_roundtrip_witness :
    readScenes (writeScenes [100, 200]) = some (.tuple [100, 200]) ∧
    readScenes (writeScenes [7]) = some (.int 7) ∧
    readScenes (writeScenes []) = none :=
  scenes_cache_roundtrip [100, 200] 7 (by decide)

/-- C10: an operator-supplied output name carrying a genuine extension (a
last dot strictly inside the name, the `0 < i < len(name) - 1` rule of
`pathlib`) comes out with that extension replaced by `.mkv` whatever the
extension was, and with no output name supplied the default is the
input's stem followed by `_av1.mkv`. -/
theorem outputs_filenames_spec (s e inp : List Char) (hs : s ≠ []) (hne : e ≠ [])
    (he : '.' ∉ e) :
    outputs_filenames (some (s ++ '.' :: e)) inp = s ++ ".mkv".toList ∧
    outputs_filenames none inp = pyStem inp ++ "_av1.mkv".toList := by
  constructor
  · rw [outputs_filenames, pyWithSuffix, pyStem_append_ext s e hs hne he]
  · rfl

/-- C10 witness: `out.mp4` becomes `out.mkv`; without an output name the
input `in.mkv` yields the default `in_av1.mkv`. -/
theorem outputs_filenames_spec_witness :
    outputs_filenames (some ("out".toList ++ '.' :: "mp4".toList)) "in".toList =
      "out".toList ++ ".mkv".toList ∧
    outputs_filenames none "in".toList = pyStem "in".toList ++ "_av1.mkv".toList :=
  outputs_filenames_spec "out".toList "mp4".toList "in".toList (by decide) (by decide)
    (by decide)

/-- C1: with `no_check` false, a frame-count mismatch leaves the journal
unchanged and reports encoded and source counts, while equal counts record
the chunk's name mapped to its source frame count. -/
theorem frame_check_mismatch_spec (j : Journal) (name : List Char) (s1 s2 : Nat) :
    (s1 ≠ s2 → frame_check false j name s1 s2 = (j, .mismatch name s2 s1)) ∧
    (s1 = s2 → doneLookup (frame_check false j name s1 s2).1.done name = some s1) := by
  constructor
  · intro hne
    simp [frame_check, hne]
  · intro heq
    simp [frame_check, heq, doneLookup_updateDone]

/-- C1 witness: a 100-frame source chunk whose encode produced 99 frames
is not added to the journal, and both counts are reported. -/
theorem frame_check_mismatch_spec_witness :
    frame_check false ⟨300, []⟩ "0.mkv".toList 100 99 =
      (⟨300, []⟩, .mismatch "0.mkv".toList 99 100) :=
  (frame_check_mismatch_spec ⟨300, []⟩ "0.mkv".toList 100 99).1 (by decide)

/-- C7: the fresh-start branch of `encoding_loop` writes the probed total,
and every journal rewrite performed by `frame_check` (both the `no_check`
branch and the matching-counts branch, as well as the mismatch branch that
does not write) preserves the `total` field. -/
theorem frame_check_preserves_total (noCheck : Bool) (j : Journal) (name : List Char)
    (s1 s2 t : Nat) :
    (frame_check noCheck j name s1 s2).1.total = j.total ∧ (initJournal t).total = t := by
  refine ⟨?_, rfl⟩
  rw [frame_check]
  split
  · rfl
  · split <;> rfl

/-- C2: on a resumed run with an existing journal, a returned encode queue
contains precisely the `.mkv` split files whose names are not keys of the
journal's done map. -/
theorem get_video_queue_resume_mem (files : List VFile) (j : Journal) (q : List VFile)
    (f : VFile) (hq : get_video_queue files true (some j) = some q) :
    f ∈ q ↔ f ∈ files ∧ pySuffix f.name = ".mkv".toList ∧ f.name ∉ doneKeys j := by
  simp only [get_video_queue] at hq
  split at hq
  · exact absurd hq (by simp)
  · replace hq := Option.some.inj hq
    subst hq
    rw [(sortDesc_perm _).mem_iff]
    simp only [List.mem_filter, Bool.not_eq_true', decide_eq_false_iff_not, decide_eq_true_eq]
    tauto

/-- C2 witness: with chunks `0.mkv` and `1.mkv` recorded in the journal,
only `2.mkv` is queued. -/
theorem get_video_queue_resume_mem_witness :
    VFile.mk "2.mkv".toList 10 ∈ [VFile.mk "2.mkv".toList 10] ↔
      VFile.mk "2.mkv".toList 10 ∈
          [VFile.mk "0.mkv".toList 30, VFile.mk "1.mkv".toList 20,
            VFile.mk "2.mkv".toList 10] ∧
        pySuffix (VFile.mk "2.mkv".toList 10).name = ".mkv".toList ∧
        (VFile.mk "2.mkv".toList 10).name ∉
          doneKeys ⟨300, [("0.mkv".toList, 100), ("1.mkv".toList, 100)]⟩ :=
  get_video_queue_resume_mem _ _ _ _ rfl

/-- C4: one future is submitted per queued command, so the pool never runs
more than `min workers clips` chunks at once, and on a fresh (non-resume)
run the bound is exactly `min workers clips`. -/
theorem encoding_loop_concurrency (workers : Nat) (files : List VFile) (resume : Bool)
    (doneFile : Option Journal) (q : List VFile)
    (hq : get_video_queue files resume doneFile = some q) :
    encodingLoopMaxConcurrent workers q.length ≤ encodingLoopW workers files ∧
    (resume = false →
      encodingLoopMaxConcurrent workers q.length = encodingLoopW workers files) := by
  obtain ⟨hle, heq⟩ := get_video_queue_length files resume doneFile q hq
  constructor
  · exact min_le_min (le_refl workers) hle
  · intro h
    rw [encodingLoopMaxConcurrent, poolMaxConcurrent, encodingLoopW, heq h]

/-- C4 witness: three fresh chunks and four requested workers give an
effective concurrency of three. -/
theorem encoding_loop_concurrency_witness :
    encodingLoopMaxConcurrent 4
        [VFile.mk "0.mkv".toList 30, VFile.mk "1.mkv".toList 20,
          VFile.mk "2.mkv".toList 10].length ≤
      encodingLoopW 4
        [VFile.mk "0.mkv".toList 30, VFile.mk "1.mkv".toList 20,
          VFile.mk "2.mkv".toList 10] ∧
    (false = false →
      encodingLoopMaxConcurrent 4
          [VFile.mk "0.mkv".toList 30, VFile.mk "1.mkv".toList 20,
            VFile.mk "2.mkv".toList 10].length =
        encodingLoopW 4
          [VFile.mk "0.mkv".toList 30, VFile.mk "1.mkv".toList 20,
            VFile.mk "2.mkv".toList 10]) :=
  encoding_loop_concurrency 4 _ false none _ rfl

/-- C6 counterexample: the encoder given as `aom` on the command line and
as `rav1e` in an existing config file comes out as `rav1e`: the file
value, not the operator flag, takes precedence. -/
theorem config_precedence_counterexample :
    cliArgsEx "encoder" = some "aom" ∧
    configFileEx "encoder" = some "rav1e" ∧
    configRead cliArgsEx true configFileEx "encoder" = some "rav1e" ∧
    configRead cliArgsEx true configFileEx "encoder" ≠ some "aom" :=
  ⟨rfl, rfl, rfl, by decide⟩

/-- C6 (amended): when the config file exists, every key present in the
file takes the file's value — the file overrides the command line — and
keys absent from the file keep their command-line value. -/
theorem config_file_overrides (d file : PyDict) (k : String) :
    (∀ v, file k = some v → configRead d true file k = some v) ∧
    (file k = none → configRead d true file k = d k) := by
  constructor
  · intro v hv
    simp [configRead, dictUpdate, hv, Option.orElse]
  · intro hv
    simp [configRead, dictUpdate, hv, Option.orElse]

/-- C6 witness: the amended precedence evaluated on the concrete encoder
conflict. -/
theorem config_file_overrides_witness :
    configRead cliArgsEx true configFileEx "encoder" = some "rav1e" :=
  (config_file_overrides cliArgsEx configFileEx "encoder").1 "rav1e" rfl

/-- C3: a first probe rounding above the target returns `max_cq` with one
probe recorded; otherwise a second probe rounding below the target returns
`min_cq` with two probes recorded; otherwise every probe of the command
list is run and recorded, and the loop falls through to interpolation. -/
theorem target_vmaf_early_exit_spec (steps : ℤ) (target : ℚ) (minCq maxCq : ℤ)
    (m0 m1 : ℚ) (q0 q1 : ℤ) (rest : List (ℚ × ℤ)) (hs : ¬ steps < 4) :
    (target < (pyRound m0 : ℚ) →
      target_vmaf steps target minCq maxCq ((m0, q0) :: (m1, q1) :: rest) =
        .ok (.early maxCq [(m0, q0)])) ∧
    (¬ target < (pyRound m0 : ℚ) → (pyRound m1 : ℚ) < target →
      target_vmaf steps target minCq maxCq ((m0, q0) :: (m1, q1) :: rest) =
        .ok (.early minCq [(m0, q0), (m1, q1)])) ∧
    (¬ target < (pyRound m0 : ℚ) → ¬ (pyRound m1 : ℚ) < target →
      target_vmaf steps target minCq maxCq ((m0, q0) :: (m1, q1) :: rest) =
        .ok (.interpolate ((m0, q0) :: (m1, q1) :: rest))) := by
  refine ⟨?_, ?_, ?_⟩
  · intro h0
    rw [target_vmaf, if_neg hs, targetVmafLoop, if_pos ⟨rfl, h0⟩]
    rfl
  · intro h0 h1
    rw [target_vmaf, if_neg hs, targetVmafLoop, if_neg (fun hc => h0 hc.2),
      if_neg (fun hc => absurd hc.1 (by decide)), targetVmafLoop,
      if_neg (fun hc => absurd hc.1 (by decide)), if_pos ⟨rfl, h1⟩]
    rfl
  · intro h0 h1
    rw [target_vmaf, if_neg hs, targetVmafLoop, if_neg (fun hc => h0 hc.2),
      if_neg (fun hc => absurd hc.1 (by decide)), targetVmafLoop,
      if_neg (fun hc => absurd hc.1 (by decide)), if_neg (fun hc => h1 hc.2),
      targetVmafLoop_no_early target minCq maxCq rest _ 2 (le_refl 2)]
    rfl

/-- C3 witness: the spec scenario — target 90, probe at Q=50 scoring 93 —
returns Q=50 with a single probe recorded. -/
theorem target_vmaf_early_exit_spec_witness :
    target_vmaf 4 90 25 50 [(93, 50), (80, 25)] = .ok (.early 50 [(93, 50)]) :=
  (target_vmaf_early_exit_spec 4 90 25 50 93 80 50 25 [] (by decide)).1 (by decide)

/-- C8: fewer than four steps fails the guard at the top of `target_vmaf`
before the proxy clip is built or any probe is run; the error outcome
carries no recorded probe. -/
theorem target_vmaf_steps_guard (steps : ℤ) (target : ℚ) (minCq maxCq : ℤ)
    (cmd : List (ℚ × ℤ)) (h : steps < 4) :
    target_vmaf steps target minCq maxCq cmd = .error .tooFewSteps := by
  rw [target_vmaf, if_pos h]

/-- C8 witness: three steps are rejected. -/
theorem target_vmaf_steps_guard_witness :
    target_vmaf 3 90 25 50 [(93, 50)] = .error .tooFewSteps :=
  target_vmaf_steps_guard 3 90 25 50 [(93, 50)] (by decide)

/-- C9: on the two-pass command tuple `(pass1, pass2, (source, target))`,
target-quality mode rewrites both passes with the same chosen quantizer
and boost mode rewrites both passes with the same adjusted quantizer,
while the final file pair passes through unchanged (and `man_cq` touches
only the quantizer token). -/
theorem encode_rewrite_two_pass (s0 s1 : List CToken) (src tgt : List Char)
    (q adjusted : ℤ) :
    encodeRewrite 2 (some q) false adjusted [.stage s0, .stage s1, .filePair src tgt] =
      some [.stage (man_cq s0 q), .stage (man_cq s1 q), .filePair src tgt] ∧
    encodeRewrite 2 none true adjusted [.stage s0, .stage s1, .filePair src tgt] =
      some [.stage (man_cq s0 adjusted), .stage (man_cq s1 adjusted),
        .filePair src tgt] :=
  ⟨rfl, rfl⟩

end Av1anSpec
